import Mathlib

set_option maxHeartbeats 1000000

/-!
Shallow embedding of the retrieval and indexing engine of the
obsidian-notebook-mcp repository (src/src/vectorProcessor.js and the
search tool dispatch in src/src/mcpServer.js), together with theorems
settling the specification claims about chunking, point identity,
query expansion, hybrid scoring and merging, and error handling.

Strings are modelled as lists of characters; JavaScript floating-point
score arithmetic is modelled over the rationals; network calls
(embedding service, vector store) are modelled as oracle functions
returning Except values, so that thrown exceptions become error
results and try/catch becomes explicit handling.
-/

namespace ObsidianMCP

/-- Strings are modelled as lists of characters. -/
abbrev Str := List Char

/-- Whitespace, modelling the JavaScript regex class backslash-s and the
character set stripped by trim, restricted to the ASCII range. -/
def isWsChar (c : Char) : Bool :=
  c = ' ' || c = '\t' || c = '\n' || c = '\r' || c = '\x0b' || c = '\x0c'

/-- Lower-casing of a string, as String.prototype.toLowerCase on ASCII. -/
def toLowerStr (s : Str) : Str := s.map Char.toLower

/-- Trim, as String.prototype.trim: strip leading and trailing whitespace. -/
def trimStr (s : Str) : Str :=
  ((s.dropWhile isWsChar).reverse.dropWhile isWsChar).reverse

/-- Substring test, modelling String.prototype.includes: the first
argument occurs contiguously inside the second. -/
def isInfixOfStr (needle : Str) : Str → Bool
  | [] => needle.isEmpty
  | c :: t => needle.isPrefixOf (c :: t) || isInfixOfStr needle t

/-- Helper for splitWsRuns: accumulates the current piece in reverse;
the flag records whether the scanner is inside a whitespace run, whose
further characters are skipped. -/
def splitWsAux (buf : Str) (inWs : Bool) : Str → List Str
  | [] => [buf.reverse]
  | c :: t =>
    if isWsChar c then
      if inWs then splitWsAux buf true t
      else buf.reverse :: splitWsAux [] true t
    else splitWsAux (c :: buf) false t

/-- Model of str.split with the whitespace-run regex: pieces between
maximal whitespace runs, with empty pieces at the ends when the string
starts or ends with whitespace, and a single empty piece for the empty
string, as in JavaScript. -/
def splitWsRuns (s : Str) : List Str := splitWsAux [] false s

/-- Payload stored with a point in the vector store and carried on
search results. -/
structure Payload where
  file_path : Str
  chunk_index : Nat
  text : Str
  title : Option Str
  tags : List Str
deriving Repr, DecidableEq, Inhabited

/-- Accumulated search result entry: score plus the payload spread, as
built by the search accumulator in vectorProcessor.js. -/
structure Hit where
  score : ℚ
  searchQuery : Str
  searchType : Str
  payload : Payload
deriving Repr, DecidableEq, Inhabited

/-- Per-word bonus step of calculateTextScore: for each query word of
length greater than 2, add 0.1 if it occurs in the chunk text, 0.15 if
in the title, 0.05 if in the file path. -/
def wordScoreStep (text title filePath : Str) (score : ℚ) (w : Str) : ℚ :=
  if 2 < w.length then
    score + (if isInfixOfStr w text then 1/10 else 0)
          + (if isInfixOfStr w title then 3/20 else 0)
          + (if isInfixOfStr w filePath then 1/20 else 0)
  else score

/-- Model of calculateTextScore from vectorProcessor.js: base score 0.5,
additive bonuses for phrase matches in text/title/file path, per-word
bonuses, a prefix bonus, and a final cap at 1.0 applied by Math.min. -/
def calculateTextScore (query : Str) (payload : Payload) : ℚ :=
  let queryLower := toLowerStr query
  let text := toLowerStr payload.text
  let title := toLowerStr (payload.title.getD [])
  let filePath := toLowerStr payload.file_path
  let score : ℚ := 1/2
  let score := score + (if isInfixOfStr queryLower text then 3/10 else 0)
  let score := score + (if isInfixOfStr queryLower title then 2/5 else 0)
  let score := score + (if isInfixOfStr queryLower filePath then 1/5 else 0)
  let queryWords := splitWsRuns queryLower
  let score := queryWords.foldl (wordScoreStep text title filePath) score
  let score := score + (if queryLower.isPrefixOf text then 1/5 else 0)
  min score 1

/-- Final lexical score assigned in addFullTextResults: the capped
calculateTextScore result, plus a further 0.2 exact-substring bonus
added after the cap when the lowered chunk text contains the lowered
variant. -/
def fullTextScore (searchQuery : Str) (payload : Payload) : ℚ :=
  calculateTextScore searchQuery payload +
    (if isInfixOfStr (toLowerStr searchQuery) (toLowerStr payload.text) then 1/5
     else 0)

/-- Scanner state of splitParas. In norm the buffer holds the current
piece reversed. In sawNl a newline has been seen and pend holds it plus
the following non-newline whitespace, reversed: a second newline
completes a separator, a non-whitespace character flushes pend back
into the piece. In inSep a separator has matched and the piece before
it has been emitted; pend2 holds the non-newline whitespace seen after
the current last newline of the separator, which belongs to the next piece
unless a further newline extends the separator. -/
inductive SpState where
  | norm (buf : Str)
  | sawNl (buf : Str) (pend : Str)
  | inSep (pend2 : Str)

/-- Leftmost greedy matching of the paragraph separator regex (a
newline, then as much whitespace as possible, ending with a newline):
a maximal whitespace run acts as a separator exactly when it contains
two newlines, the separator reaching from its first to its last
newline. -/
def spGo (st : SpState) : Str → List Str
  | [] =>
    match st with
    | .norm buf => [buf.reverse]
    | .sawNl buf pend => [(pend ++ buf).reverse]
    | .inSep pend2 => [pend2.reverse]
  | c :: t =>
    match st with
    | .norm buf =>
      if c = '\n' then spGo (.sawNl buf ['\n']) t
      else spGo (.norm (c :: buf)) t
    | .sawNl buf pend =>
      if c = '\n' then buf.reverse :: spGo (.inSep []) t
      else if isWsChar c then spGo (.sawNl buf (c :: pend)) t
      else spGo (.norm (c :: (pend ++ buf))) t
    | .inSep pend2 =>
      if c = '\n' then spGo (.inSep []) t
      else if isWsChar c then spGo (.inSep (c :: pend2)) t
      else spGo (.norm (c :: pend2)) t

/-- Model of text.split on the blank-line regex in chunkDocument. -/
def splitParas (text : Str) : List Str := spGo (.norm []) text

/-- Chunk produced by chunkDocument: the chunk text and its nominal
start offset. -/
structure Chunk where
  text : Str
  start : Nat
deriving Repr, DecidableEq, Inhabited

/-- JavaScript string slice with a negative index: the last n
characters of the string, or the whole string when it is shorter. -/
def sliceLast (s : Str) (n : Nat) : Str := s.drop (s.length - n)

/-- Paragraph-accumulation loop of chunkDocument: flush the buffer as a
chunk when appending the next paragraph would exceed 1000 characters
and the buffer is non-empty, seeding the next buffer with the last 100
characters of the flushed buffer; otherwise append the paragraph,
separated by a blank line when the buffer is non-empty. -/
def chunkLoop : List Str → List Chunk → Str → List Chunk × Str
  | [], chunks, cur => (chunks, cur)
  | p :: ps, chunks, cur =>
    if 1000 < cur.length + p.length ∧ 0 < cur.length then
      chunkLoop ps (chunks ++ [⟨trimStr cur, chunks.length * 900⟩])
        (sliceLast cur 100 ++ p)
    else
      chunkLoop ps chunks (cur ++ (if 0 < cur.length then '\n' :: '\n' :: p else p))

/-- Model of chunkDocument from vectorProcessor.js, applied to the
document content. -/
def chunkDocument (text : Str) : List Chunk :=
  let paragraphs := splitParas text
  let st := chunkLoop paragraphs [] []
  let chunks := st.1
  let cur := st.2
  let chunks :=
    if 0 < (trimStr cur).length then chunks ++ [⟨trimStr cur, chunks.length * 900⟩]
    else chunks
  if 0 < chunks.length then chunks else [⟨trimStr text, 0⟩]

/-- Decimal rendering of a natural number, as JavaScript template
interpolation of a non-negative integer. -/
def natToStr (n : Nat) : Str := (toString n).data

/-- Accumulator key used by both search legs, file_path and chunk_index
joined by an underscore. -/
def hitKey (p : Payload) : Str := p.file_path ++ ('_' :: natToStr p.chunk_index)

/-- JavaScript Map.get on the accumulator. -/
def mapGet (m : List (Str × Hit)) (k : Str) : Option Hit :=
  match m with
  | [] => none
  | (k2, v) :: rest => if k2 = k then some v else mapGet rest k

/-- JavaScript Map.set on the accumulator: replace in place, or append
a new binding at the end. -/
def mapSet (m : List (Str × Hit)) (k : Str) (v : Hit) : List (Str × Hit) :=
  match m with
  | [] => [(k, v)]
  | (k2, v2) :: rest =>
    if k2 = k then (k, v) :: rest else (k2, v2) :: mapSet rest k v

/-- Conditional insertion shared by both search legs: a candidate hit is
stored when its key is absent or its score is strictly greater than the
stored score; on equal scores the stored entry is kept. -/
def updateResults (m : List (Str × Hit)) (cand : Hit) : List (Str × Hit) :=
  let k := hitKey cand.payload
  match mapGet m k with
  | none => mapSet m k cand
  | some old => if old.score < cand.score then mapSet m k cand else m

/-- Point returned by the vector store similarity search. -/
structure ScoredPoint where
  score : ℚ
  payload : Payload
deriving Repr, DecidableEq, Inhabited

/-- Match-type tag of the semantic leg. -/
def semanticStr : Str := ("semantic").data

/-- Match-type tag of the lexical leg. -/
def fullTextStr : Str := ("full-text").data

/-- Merge of one semantic result page into the accumulator. -/
def mergeSemanticPoints (v : Str) (pts : List ScoredPoint)
    (m : List (Str × Hit)) : List (Str × Hit) :=
  pts.foldl (fun m pt => updateResults m ⟨pt.score, v, semanticStr, pt.payload⟩) m

/-- Semantic leg of search over the variant list: per variant, embed it
and query the store for the nearest neighbours; any error propagates
and aborts the whole call. The store oracle receives the doubled limit;
payload inclusion and the 0.3 score threshold are behavior of the
external store. -/
def semanticPass (embed : Str → Except ε (List ℚ))
    (storeSearch : List ℚ → Nat → Except ε (List ScoredPoint)) (lim : Nat) :
    List Str → List (Str × Hit) → Except ε (List (Str × Hit))
  | [], m => .ok m
  | v :: vs, m => do
    let vec ← embed v
    let pts ← storeSearch vec (lim * 2)
    semanticPass embed storeSearch lim vs (mergeSemanticPoints v pts m)

/-- Merge of one lexical scroll page into the accumulator, scoring each
point with the heuristic text score plus the exact-substring bonus. -/
def mergeLexPoints (v : Str) (pts : List Payload)
    (m : List (Str × Hit)) : List (Str × Hit) :=
  pts.foldl (fun m p => updateResults m ⟨fullTextScore v p, v, fullTextStr, p⟩) m

/-- Model of addFullTextResults with its surrounding try/catch: the
scroll query is issued per variant in order; the first error aborts the
remaining variants but is swallowed, leaving the accumulator as already
built. -/
def addFullTextResults (scroll : Str → Nat → Except ε (List Payload)) (lim : Nat) :
    List Str → List (Str × Hit) → List (Str × Hit)
  | [], m => m
  | v :: vs, m =>
    match scroll v (lim * 2) with
    | .error _ => m
    | .ok pts => addFullTextResults scroll lim vs (mergeLexPoints v pts m)

/-- Stable descending insertion by score, modelling the stable
JavaScript sort with the comparator subtracting scores. -/
def insertDesc (x : Hit) : List Hit → List Hit
  | [] => [x]
  | y :: ys => if y.score < x.score then x :: y :: ys else y :: insertDesc x ys

/-- Descending stable sort of the accumulator values. -/
def sortHits (l : List Hit) : List Hit := l.foldr insertDesc []

/-- Month names of the date regex alternation, in order. -/
def monthNames : List Str :=
  [("january").data, ("february").data, ("march").data, ("april").data,
   ("may").data, ("june").data, ("july").data, ("august").data,
   ("september").data, ("october").data, ("november").data, ("december").data]

/-- Fixed 12-entry month table of expandQuery. -/
def monthMap (m : Str) : Str :=
  ((([(("january").data, ("01").data), (("february").data, ("02").data),
      (("march").data, ("03").data), (("april").data, ("04").data),
      (("may").data, ("05").data), (("june").data, ("06").data),
      (("july").data, ("07").data), (("august").data, ("08").data),
      (("september").data, ("09").data), (("october").data, ("10").data),
      (("november").data, ("11").data), (("december").data, ("12").data)]
     : List (Str × Str)).lookup m).getD [])

/-- Word characters of the JavaScript regex classes backslash-w and the
word-boundary assertion. -/
def isWordChar (c : Char) : Bool := c.isAlphanum || c = '_'

/-- Boundary test after the last consumed character of the date match:
the next character must not be a word character, or the string ends. -/
def boundaryAt : Str → Bool
  | [] => true
  | c :: _ => !isWordChar c

/-- Ordinal suffixes of the date regex. -/
def ordSuffixes : List Str := [("st").data, ("nd").data, ("rd").data, ("th").data]

/-- Optional ordinal suffix followed by a word boundary: some suffix may
be consumed before the boundary, or none. -/
def ordAfter (t : Str) : Bool :=
  ordSuffixes.any (fun s => s.isPrefixOf t && boundaryAt (t.drop 2)) || boundaryAt t

/-- Tail of the date regex after the month name: one or more whitespace
characters, then one or two digits taken greedily with backtracking,
then an optional ordinal suffix and a word boundary; returns the
captured day digits. -/
def matchDayPart (rest : Str) : Option Str :=
  let run := rest.takeWhile isWsChar
  if run.length = 0 then none
  else
    match rest.drop run.length with
    | [] => none
    | d1 :: t1 =>
      if d1.isDigit then
        match t1 with
        | d2 :: t2 =>
          if d2.isDigit then
            if ordAfter t2 then some [d1, d2]
            else if ordAfter t1 then some [d1]
            else none
          else if ordAfter t1 then some [d1]
          else none
        | [] => if ordAfter t1 then some [d1] else none
      else none

/-- Attempt of every month-name alternative as a literal at the current
position, completing the date pattern after it; month names are not
prefixes of one another, so at most one can match. -/
def tryMonthsAt (s : Str) : Option (Str × Str) :=
  monthNames.findSome? (fun m =>
    if m.isPrefixOf s then (matchDayPart (s.drop m.length)).map (fun d => (m, d))
    else none)

/-- Leftmost match of the date regex: scan positions left to right; the
month name must start at a word boundary, so the previous character
must not be a word character. -/
def findDateMatchGo (prevIsWord : Bool) : Str → Option (Str × Str)
  | [] => none
  | c :: t =>
    match (if prevIsWord then none else tryMonthsAt (c :: t)) with
    | some r => some r
    | none => findDateMatchGo (isWordChar c) t

/-- Date pattern match of expandQuery on the lowered query: the matched
month name and the raw day digits. -/
def findDateMatch (s : Str) : Option (Str × Str) := findDateMatchGo false s

/-- Day digits padded to two characters, as padStart. -/
def padDay (d : Str) : Str := if d.length = 1 then '0' :: d else d

/-- Date format variations pushed for a matched date, in order. -/
def dateVariations (year : Nat) (mname mdayRaw : Str) : List Str :=
  let month := monthMap mname
  let day := padDay mdayRaw
  let yearS := natToStr year
  [month ++ ('-' :: day),
   yearS ++ ('-' :: (month ++ ('-' :: day))),
   month ++ ('/' :: day),
   month ++ day,
   yearS ++ (month ++ day),
   mname ++ (' ' :: mdayRaw),
   mname ++ ('-' :: mdayRaw),
   day,
   month]

/-- Stop-word list of the keyword extraction. -/
def stopWords : List Str :=
  [("the").data, ("and").data, ("for").data, ("from").data, ("about").data,
   ("can").data, ("you").data, ("tell").data, ("anything").data, ("notes").data]

/-- Deduplication keeping first occurrences, as iterating a JavaScript
Set built from an array. -/
def jsSetDedup : List Str → List Str
  | [] => []
  | x :: xs => x :: (jsSetDedup xs).filter (fun y => y ≠ x)

/-- Model of expandQuery from vectorProcessor.js. The current calendar
year, read from the clock in the source, is an explicit parameter; the
date variations are pushed twice, as in the source, and the final array
is deduplicated. -/
def expandQuery (query : Str) (year : Nat) : List Str :=
  let lowerQuery := toLowerStr query
  let dm := findDateMatch lowerQuery
  let queries := [query]
  let queries :=
    match dm with
    | some (mname, mday) =>
      queries ++ dateVariations year mname mday ++ dateVariations year mname mday
    | none => queries
  let meaningfulWords := (splitWsRuns lowerQuery).filter
    (fun w => 2 < w.length && !stopWords.contains w)
  let queries := queries ++ meaningfulWords
  let queries :=
    if isInfixOfStr ("meeting").data lowerQuery then
      queries ++ [("## Meetings").data, ("Meetings & Appointments").data,
                  ("meeting notes").data, ("appointment").data,
                  ("Meeting").data, ("meetings").data]
    else queries
  let queries :=
    if isInfixOfStr ("daily").data lowerQuery then
      queries ++ [("daily note").data, ("## Daily").data, ("Daily").data,
                  ("today").data]
    else queries
  let queries :=
    if isInfixOfStr ("appointment").data lowerQuery then
      queries ++ [("## Appointments").data, ("meeting").data,
                  ("schedule").data, ("Appointment").data]
    else queries
  let queries :=
    match dm with
    | some (mname, mday) =>
      if isInfixOfStr ("meeting").data lowerQuery then
        let month := monthMap mname
        let day := padDay mday
        queries ++ [month ++ ('-' :: day) ++ (" meeting").data,
                    month ++ ('-' :: day) ++ (" Meeting").data,
                    ("Meeting ").data ++ (month ++ ('-' :: day))]
      else queries
    | none => queries
  jsSetDedup queries

/-- Model of search from vectorProcessor.js: expand the query, run the
semantic leg per variant (embedding and store errors propagate), then
the lexical leg (errors swallowed), then sort the accumulator values by
descending score and truncate to the limit. -/
def search (embed : Str → Except ε (List ℚ))
    (storeSearch : List ℚ → Nat → Except ε (List ScoredPoint))
    (scroll : Str → Nat → Except ε (List Payload))
    (year : Nat) (query : Str) (lim : Nat := 10) : Except ε (List Hit) := do
  let queries := expandQuery query year
  let acc ← semanticPass embed storeSearch lim queries []
  let acc := addFullTextResults scroll lim queries acc
  pure ((sortHits (acc.map Prod.snd)).take lim)

/-- Error values raised by the MCP tool layer in mcpServer.js. -/
inductive McpError where
  | invalidParams (msg : Str)
  | internalError (msg : Str)
deriving Repr, DecidableEq

/-- Model of handleSearchNotes from mcpServer.js: a missing or empty
(falsy) query argument is rejected with an InvalidParams error before
the engine search is invoked; engine errors are wrapped as
InternalError. The JSON response formatting of the success case is
elided and the hit list is returned directly. -/
def handleSearchNotes (doSearch : Str → Nat → Except Str (List Hit))
    (query : Option Str) (lim : Nat := 10) : Except McpError (List Hit) :=
  match query with
  | none => .error (.invalidParams ("Query parameter is required").data)
  | some q =>
    if q.isEmpty then .error (.invalidParams ("Query parameter is required").data)
    else
      match doSearch q lim with
      | .error e => .error (.internalError e)
      | .ok hits => .ok hits

/-- Reduction to a 32-bit word. -/
def w32 (n : Nat) : Nat := n % 4294967296

/-- Addition of 32-bit words. -/
def wadd (a b : Nat) : Nat := (a + b) % 4294967296

/-- Bitwise complement of a 32-bit word. -/
def wnot (a : Nat) : Nat := 4294967295 - w32 a

/-- Left rotation of a 32-bit word by n bits. -/
def rotl (x n : Nat) : Nat := (x <<< n ||| x >>> (32 - n)) % 4294967296

/-- Sine-derived constant table of MD5. -/
def md5K : List Nat :=
  [3614090360, 3905402710, 606105819, 3250441966, 4118548399, 1200080426,
   2821735955, 4249261313, 1770035416, 2336552879, 4294925233, 2304563134,
   1804603682, 4254626195, 2792965006, 1236535329, 4129170786, 3225465664,
   643717713, 3921069994, 3593408605, 38016083, 3634488961, 3889429448,
   568446438, 3275163606, 4107603335, 1163531501, 2850285829, 4243563512,
   1735328473, 2368359562, 4294588738, 2272392833, 1839030562, 4259657740,
   2763975236, 1272893353, 4139469664, 3200236656, 681279174, 3936430074,
   3572445317, 76029189, 3654602809, 3873151461, 530742520, 3299628645,
   4096336452, 1126891415, 2878612391, 4237533241, 1700485571, 2399980690,
   4293915773, 2240044497, 1873313359, 4264355552, 2734768916, 1309151649,
   4149444226, 3174756917, 718787259, 3951481745]

/-- Per-round shift amounts of MD5. -/
def md5S : List Nat :=
  [7, 12, 17, 22, 7, 12, 17, 22, 7, 12, 17, 22, 7, 12, 17, 22,
   5, 9, 14, 20, 5, 9, 14, 20, 5, 9, 14, 20, 5, 9, 14, 20,
   4, 11, 16, 23, 4, 11, 16, 23, 4, 11, 16, 23, 4, 11, 16, 23,
   6, 10, 15, 21, 6, 10, 15, 21, 6, 10, 15, 21, 6, 10, 15, 21]

/-- One of the 64 MD5 operations on the running state, with M the
sixteen message words of the current block. -/
def md5Step (M : List Nat) (st : Nat × Nat × Nat × Nat) (i : Nat) :
    Nat × Nat × Nat × Nat :=
  let a := st.1
  let b := st.2.1
  let c := st.2.2.1
  let d := st.2.2.2
  let f :=
    if i < 16 then (b &&& c) ||| (wnot b &&& d)
    else if i < 32 then (d &&& b) ||| (wnot d &&& c)
    else if i < 48 then b ^^^ c ^^^ d
    else c ^^^ (b ||| wnot d)
  let g :=
    if i < 16 then i
    else if i < 32 then (5 * i + 1) % 16
    else if i < 48 then (3 * i + 5) % 16
    else (7 * i) % 16
  let tmp := wadd (wadd (wadd a f) (md5K.getD i 0)) (M.getD g 0)
  (d, wadd b (rotl tmp (md5S.getD i 0)), b, c)

/-- Compression of one 512-bit block into the MD5 state. -/
def md5Block (st : Nat × Nat × Nat × Nat) (M : List Nat) :
    Nat × Nat × Nat × Nat :=
  let r := (List.range 64).foldl (md5Step M) st
  (wadd st.1 r.1, wadd st.2.1 r.2.1, wadd st.2.2.1 r.2.2.1,
   wadd st.2.2.2 r.2.2.2)

/-- Little-endian decoding of bytes into 32-bit words. -/
def bytesToWordsLE : List Nat → List Nat
  | b0 :: b1 :: b2 :: b3 :: rest =>
    (b0 + 256 * b1 + 65536 * b2 + 16777216 * b3) :: bytesToWordsLE rest
  | _ => []

/-- Little-endian encoding of a 32-bit word as four bytes. -/
def wordToBytesLE (w : Nat) : List Nat :=
  [w % 256, w / 256 % 256, w / 65536 % 256, w / 16777216 % 256]

/-- Little-endian encoding of the 64-bit message bit length. -/
def lenBytesLE (n : Nat) : List Nat :=
  (List.range 8).map (fun i => n / 256 ^ i % 256)

/-- MD5 padding: a 0x80 byte, zeros to 56 modulo 64, then the bit
length. -/
def md5Pad (msg : List Nat) : List Nat :=
  let r := (msg.length + 1) % 64
  let zeros := (56 + 64 - r) % 64
  msg ++ (128 :: List.replicate zeros 0) ++
    lenBytesLE (8 * msg.length % 18446744073709551616)

/-- Split of the padded message into 64-byte blocks; padding makes the
length an exact multiple of 64. -/
def chunks64 (l : List Nat) : List (List Nat) :=
  (List.range (l.length / 64)).map (fun i => (l.drop (64 * i)).take 64)

/-- Initial MD5 state. -/
def md5Init : Nat × Nat × Nat × Nat :=
  (1732584193, 4023233417, 2562383102, 271733878)

/-- MD5 digest of a byte sequence, as sixteen bytes. -/
def md5Bytes (msg : List Nat) : List Nat :=
  let blocks := (chunks64 (md5Pad msg)).map bytesToWordsLE
  let st := blocks.foldl md5Block md5Init
  wordToBytesLE st.1 ++ wordToBytesLE st.2.1 ++ wordToBytesLE st.2.2.1 ++
    wordToBytesLE st.2.2.2

/-- Lower-case hexadecimal digit table. -/
def hexDigits : Str := ("0123456789abcdef").data

/-- Two-character hexadecimal rendering of one byte. -/
def byteToHex (b : Nat) : Str :=
  [hexDigits.getD (b / 16) '0', hexDigits.getD (b % 16) '0']

/-- Hex-encoded MD5 digest of a byte sequence, as produced by the node
crypto digest in hex encoding. -/
def md5Hex (msg : List Nat) : Str := (md5Bytes msg).flatMap byteToHex

/-- UTF-8 encoding of one character. -/
def utf8EncodeChar (c : Char) : List Nat :=
  let n := c.toNat
  if n < 128 then [n]
  else if n < 2048 then [192 + n / 64, 128 + n % 64]
  else if n < 65536 then [224 + n / 4096, 128 + n / 64 % 64, 128 + n % 64]
  else [240 + n / 262144, 128 + n / 4096 % 64, 128 + n / 64 % 64, 128 + n % 64]

/-- UTF-8 byte sequence of a string, as the node crypto update applies
to a JavaScript string. -/
def strBytes (s : Str) : List Nat := s.flatMap utf8EncodeChar

/-- Model of generatePointId from vectorProcessor.js: the hex MD5
digest of the file path and chunk index joined by the literal chunk
separator. -/
def generatePointId (filePath : Str) (chunkIndex : Nat) : Str :=
  md5Hex (strBytes (filePath ++ ("_chunk_").data ++ natToStr chunkIndex))

/-- Frontmatter tags field: absent, an array, or a single value. -/
inductive FmTags where
  | missing
  | arr (tags : List Str)
  | single (tag : Str)
deriving Repr, DecidableEq

/-- Frontmatter fields relevant to the engine. -/
structure Frontmatter where
  title : Option Str
  tags : FmTags
deriving Repr, DecidableEq

/-- Document passed to the engine by the ingestion caller. -/
structure Document where
  id : Str
  path : Str
  content : Str
  frontmatter : Option Frontmatter
  lastModified : Nat
deriving Repr, DecidableEq

/-- Split of a string on a separator character, as the JavaScript
string split with a one-character literal separator. -/
def splitCharGo (sep : Char) (buf : Str) : Str → List Str
  | [] => [buf.reverse]
  | c :: t =>
    if c = sep then buf.reverse :: splitCharGo sep [] t
    else splitCharGo sep (c :: buf) t

/-- Split on a separator character starting from an empty piece. -/
def splitChar (sep : Char) (s : Str) : List Str := splitCharGo sep [] s

/-- Match of one line against the level-1 heading regex of
extractTitle, returning the captured heading already trimmed: a hash,
one or more whitespace characters taken greedily, then at least one
further character, captured to the end of the line. When everything
after the whitespace run is empty the regex backtracks and captures the
last whitespace character, which trims to the empty string. -/
def titleLineMatch (line : Str) : Option Str :=
  match line with
  | '#' :: rest =>
    let run := rest.takeWhile isWsChar
    let tail := rest.dropWhile isWsChar
    if run.length = 0 then none
    else if tail.length ≠ 0 then some (trimStr tail)
    else if 2 ≤ run.length then some []
    else none
  | _ => none

/-- First line matching the heading regex, scanned in order. -/
def findTitleLine : List Str → Option Str
  | [] => none
  | l :: ls =>
    match titleLineMatch l with
    | some t => some t
    | none => findTitleLine ls

/-- Removal of a trailing .md extension, as the anchored replace. -/
def stripMdSuffix (p : Str) : Str :=
  let r := p.reverse
  if ("dm.").data.isPrefixOf r then (r.drop 3).reverse else p

/-- Last path segment, as split on slash followed by pop. -/
def lastSegment (p : Str) : Str := (splitChar '/' p).getLastD []

/-- Truthy frontmatter title, when frontmatter exists and the title is
a non-empty string. -/
def fmTitle (doc : Document) : Option Str :=
  match doc.frontmatter with
  | some fm =>
    match fm.title with
    | some t => if t.isEmpty then none else some t
    | none => none
  | none => none

/-- Model of extractTitle from vectorProcessor.js: frontmatter title,
else first level-1 heading, else file name stem. -/
def extractTitle (doc : Document) : Str :=
  match fmTitle doc with
  | some t => t
  | none =>
    match findTitleLine (splitChar '\n' doc.content) with
    | some t => t
    | none => lastSegment (stripMdSuffix doc.path)

/-- Global matches of the inline hashtag regex: a hash followed by one
or more word or hyphen characters, scanning left to right and resuming
after each match. -/
def hashTagsGo : Str → List Str
  | [] => []
  | '#' :: t =>
    let run := t.takeWhile (fun c => isWordChar c || c = '-')
    if run.length = 0 then hashTagsGo t
    else ('#' :: run) :: hashTagsGo (t.drop run.length)
  | _ :: t => hashTagsGo t
termination_by l => l.length
decreasing_by
  · simp
  · simp only [List.length_cons, List.length_drop]
    exact Nat.lt_succ_of_le (Nat.sub_le _ _)
  · simp

/-- Model of extractTags from vectorProcessor.js: frontmatter tags
(array spread, or a single truthy value) followed by inline hashtags
with the hash stripped, deduplicated keeping first occurrences. -/
def extractTags (doc : Document) : List Str :=
  let fmTags :=
    match doc.frontmatter with
    | some fm =>
      match fm.tags with
      | .arr ts => ts
      | .single t => if t.isEmpty then [] else [t]
      | .missing => []
    | none => []
  let inline := (hashTagsGo doc.content).map (fun t => t.drop 1)
  jsSetDedup (fmTags ++ inline)

/-- Point built by processDocument for one chunk. -/
structure IndexPoint where
  id : Str
  vector : List ℚ
  file_path : Str
  chunk_index : Nat
  text : Str
  title : Str
  tags : List Str
  frontmatter : Option Frontmatter
  last_modified : Nat
deriving Repr, DecidableEq

/-- Point construction loop of processDocument: one embedding call per
chunk, in chunk order; the first embedding error aborts the loop and
propagates. -/
def buildPoints (embed : Str → Except ε (List ℚ)) (doc : Document) :
    List Chunk → Nat → Except ε (List IndexPoint)
  | [], _ => .ok []
  | c :: cs, i => do
    let vec ← embed c.text
    let rest ← buildPoints embed doc cs (i + 1)
    .ok ({ id := generatePointId doc.id i, vector := vec,
           file_path := doc.path, chunk_index := i, text := c.text,
           title := extractTitle doc, tags := extractTags doc,
           frontmatter := doc.frontmatter,
           last_modified := doc.lastModified } :: rest)

/-- Model of processDocument from vectorProcessor.js: an ok result
means the single batched upsert of all points was issued to the store;
an error result means the embedding error was rethrown and the upsert
call was never reached, so the store received nothing. -/
def processDocument (embed : Str → Except ε (List ℚ)) (doc : Document) :
    Except ε (List IndexPoint) :=
  buildPoints embed doc (chunkDocument doc.content) 0

/-- Payload whose text, title and file path all equal the literal abc,
driving every scoring bonus. -/
def payloadAbc : Payload := ⟨("abc").data, 0, ("abc").data, some (("abc").data), []⟩

/-- Document content made of two 500-character paragraphs joined by a
blank line. -/
def cex3 : Str := List.replicate 500 'a' ++ ('\n' :: '\n' :: List.replicate 500 'b')

/-- Goodness predicate of the amended chunk-size bound: a chunk length
is within the 1002 bound (1000 plus the two blank-line separator
characters), or it is dominated by an overlap seam of at most 100
characters plus one paragraph longer than 900 characters. -/
def goodChunkLen (ps : List Str) (n : Nat) : Prop :=
  n ≤ 1002 ∨ ∃ p ∈ ps, 900 < p.length ∧ n ≤ 100 + p.length

/-- Characters held by the paragraph scanner that are bound to reappear
in an emitted piece. -/
def bufOf : SpState → Str
  | .norm buf => buf
  | .sawNl buf _ => buf
  | .inSep _ => []

theorem md5Bytes_length (msg : List Nat) : (md5Bytes msg).length = 16 := by
  simp [md5Bytes, wordToBytesLE]

theorem flatMap_byteToHex_length :
    ∀ l : List Nat, (l.flatMap byteToHex).length = 2 * l.length
  | [] => rfl
  | b :: t => by
    simp only [List.flatMap_cons, List.length_append, List.length_cons,
      flatMap_byteToHex_length t, byteToHex, List.length_nil]
    omega

theorem md5Hex_length (msg : List Nat) : (md5Hex msg).length = 32 := by
  rw [md5Hex, flatMap_byteToHex_length, md5Bytes_length]

theorem getD_hexDigits_mem (k : Nat) : hexDigits.getD k '0' ∈ hexDigits := by
  rcases Nat.lt_or_ge k hexDigits.length with h | h
  · rw [List.getD_eq_getElem?_getD, List.getElem?_eq_getElem h]
    exact List.getElem_mem h
  · rw [List.getD_eq_getElem?_getD, List.getElem?_eq_none h]
    decide

theorem mem_md5Hex_hex (msg : List Nat) : ∀ c ∈ md5Hex msg, c ∈ hexDigits := by
  intro c hc
  rw [md5Hex, List.mem_flatMap] at hc
  obtain ⟨b, _, hb⟩ := hc
  simp only [byteToHex, List.mem_cons, List.not_mem_nil, or_false] at hb
  rcases hb with h | h <;> rw [h] <;> exact getD_hexDigits_mem _

/-- C10: generatePointId is the hex digest of the literal string
joining the file path and chunk index with the chunk separator; the
digest always has exactly 32 characters, all lower-case hex digits, and
repeated calls with equal arguments return the identical string. -/
theorem generatePointId_spec (filePath : Str) (chunkIndex : Nat) :
    generatePointId filePath chunkIndex =
        md5Hex (strBytes (filePath ++ ("_chunk_").data ++ natToStr chunkIndex))
      ∧ (generatePointId filePath chunkIndex).length = 32
      ∧ (∀ c ∈ generatePointId filePath chunkIndex, c ∈ hexDigits)
      ∧ generatePointId filePath chunkIndex = generatePointId filePath chunkIndex :=
  ⟨rfl, md5Hex_length _, mem_md5Hex_hex _, rfl⟩

/-- Witness for C10 at the file path and chunk index used by the
reproducibility example of the specification. -/
theorem generatePointId_spec_witness :
    (generatePointId (("daily/2025-07-22.md").data) 3).length = 32 :=
  (generatePointId_spec (("daily/2025-07-22.md").data) 3).2.1

theorem mem_jsSetDedup (a : Str) : ∀ l : List Str, a ∈ jsSetDedup l ↔ a ∈ l := by
  intro l
  induction l with
  | nil => simp [jsSetDedup]
  | cons x xs ih =>
    by_cases hax : a = x
    · subst hax; simp [jsSetDedup]
    · simp [jsSetDedup, List.mem_filter, hax, ih]

/-- C7 counterexample: the variant set of the query july 4 differs
between a call made in 2025 and a call made in 2026, because the
expansion embeds the current calendar year into date variants. -/
theorem expandQuery_year_dependent :
    (("2025-07-04").data ∈ expandQuery (("july 4").data) 2025)
    ∧ (("2025-07-04").data ∉ expandQuery (("july 4").data) 2026) := by
  decide

/-- C7 amended: expandQuery is a pure function of the query string and
the current calendar year; when the query contains no date pattern the
result is independent of the year, so only date-pattern queries can
yield different variants at different times. -/
theorem expandQuery_deterministic_given_year (q : Str) (y1 y2 : Nat)
    (h : findDateMatch (toLowerStr q) = none) :
    expandQuery q y1 = expandQuery q y2 := by
  simp only [expandQuery, h]

/-- Witness for C7 at a concrete query without a date pattern. -/
theorem expandQuery_deterministic_given_year_witness :
    expandQuery (("hello").data) 2025 = expandQuery (("hello").data) 2026 :=
  expandQuery_deterministic_given_year _ 2025 2026 (by decide)

/-- Reduction of expandQuery on the example query of the specification to
its deduplicated raw variant list, with the year symbolic. -/
theorem expandQuery_july4_eq (y : Nat) :
    expandQuery (("meeting on July 4th").data) y = jsSetDedup
      [("meeting on July 4th").data,
       ("07-04").data, natToStr y ++ ("-07-04").data, ("07/04").data,
       ("0704").data, natToStr y ++ ("0704").data, ("july 4").data,
       ("july-4").data, ("04").data, ("07").data,
       ("07-04").data, natToStr y ++ ("-07-04").data, ("07/04").data,
       ("0704").data, natToStr y ++ ("0704").data, ("july 4").data,
       ("july-4").data, ("04").data, ("07").data,
       ("meeting").data, ("july").data, ("4th").data,
       ("## Meetings").data, ("Meetings & Appointments").data,
       ("meeting notes").data, ("appointment").data, ("Meeting").data,
       ("meetings").data,
       ("07-04 meeting").data, ("07-04 Meeting").data,
       ("Meeting 07-04").data] := rfl

/-- C9 counterexample: the expansion of the example query does not
contain the capitalized variant July 4 claimed by the specification;
the month-day variant is produced from the lowered query and is
july 4. -/
theorem expandQuery_july4_case :
    (("July 4").data ∉ expandQuery (("meeting on July 4th").data) 2025)
    ∧ (("july 4").data ∈ expandQuery (("meeting on July 4th").data) 2025) := by
  decide

/-- C9 amended: for every current year, the expansion of the example
query contains the variants 07-04, year-07-04, july 4 (lower case),
the Meetings heading, and meeting. -/
theorem expandQuery_july4_contains (y : Nat) :
    (("07-04").data ∈ expandQuery (("meeting on July 4th").data) y)
    ∧ (natToStr y ++ ("-07-04").data ∈ expandQuery (("meeting on July 4th").data) y)
    ∧ (("july 4").data ∈ expandQuery (("meeting on July 4th").data) y)
    ∧ (("## Meetings").data ∈ expandQuery (("meeting on July 4th").data) y)
    ∧ (("meeting").data ∈ expandQuery (("meeting on July 4th").data) y) := by
  refine ⟨?_, ?_, ?_, ?_, ?_⟩ <;>
    · rw [expandQuery_july4_eq, mem_jsSetDedup]
      simp [List.mem_cons]

/-- Witness for C9 at the concrete year 2025. -/
theorem expandQuery_july4_contains_witness :
    ("07-04").data ∈ expandQuery (("meeting on July 4th").data) 2025 :=
  (expandQuery_july4_contains 2025).1

theorem le_wordScoreStep (text title filePath : Str) (s : ℚ) (w : Str) :
    s ≤ wordScoreStep text title filePath s w := by
  unfold wordScoreStep
  split_ifs <;> linarith

theorem le_foldl_wordScoreStep (text title filePath : Str) :
    ∀ (ws : List Str) (s : ℚ),
      s ≤ ws.foldl (wordScoreStep text title filePath) s
  | [], s => le_refl s
  | w :: ws, s =>
    le_trans (le_wordScoreStep text title filePath s w)
      (le_foldl_wordScoreStep text title filePath ws _)

theorem calculateTextScore_bounds (q : Str) (p : Payload) :
    1/2 ≤ calculateTextScore q p ∧ calculateTextScore q p ≤ 1 := by
  simp only [calculateTextScore]
  refine ⟨le_min ?_ (by norm_num), min_le_right _ _⟩
  refine le_trans (le_trans ?_ (le_foldl_wordScoreStep _ _ _ _ _))
    (le_add_of_nonneg_right ?_)
  · split_ifs <;> norm_num
  · split_ifs <;> norm_num

/-- C1 amended: the heuristic lexical score is capped at 1.0 inside
calculateTextScore, before the additional 0.2 exact-substring bonus of
addFullTextResults, so the final lexical score of a hit lies in the
interval from 0.5 to 1.2 rather than within the unit interval. -/
theorem fullTextScore_bounds (q : Str) (p : Payload) :
    calculateTextScore q p ≤ 1
    ∧ 1/2 ≤ fullTextScore q p
    ∧ fullTextScore q p ≤ 6/5 := by
  obtain ⟨hlo, hhi⟩ := calculateTextScore_bounds q p
  unfold fullTextScore
  refine ⟨hhi, le_trans hlo (le_add_of_nonneg_right ?_), ?_⟩
  · split_ifs <;> norm_num
  · have hb : (if isInfixOfStr (toLowerStr q) (toLowerStr p.text) then (1:ℚ)/5
        else 0) ≤ 1/5 := by split_ifs <;> norm_num
    linarith

/-- Witness for the C1 amended bounds at a concrete query and payload. -/
theorem fullTextScore_bounds_witness :
    fullTextScore (("x").data) ⟨[], 0, [], none, []⟩ ≤ 6/5 :=
  (fullTextScore_bounds (("x").data) ⟨[], 0, [], none, []⟩).2.2

theorem fullTextScore_payloadAbc :
    fullTextScore (("abc").data) payloadAbc = 6/5 := by
  have hq : toLowerStr (("abc").data) = ("abc").data := by decide
  have hinf : isInfixOfStr (("abc").data) (("abc").data) = true := by decide
  have hpre : List.isPrefixOf (("abc").data) (("abc").data) = true := by decide
  have hsplit : splitWsRuns (("abc").data) = [("abc").data] := by decide
  simp only [fullTextScore, calculateTextScore, wordScoreStep, payloadAbc,
    Option.getD, hq, hinf, hpre, hsplit, if_true, List.foldl_cons,
    List.foldl_nil, List.length_cons, List.length_nil]
  norm_num

/-- C1 counterexample: a full search call in which the lexical leg
returns one point whose final score is 1.2, outside the unit interval
claimed for SearchHit scores, because the 0.2 exact-substring bonus is
added after the 1.0 cap. -/
theorem search_hit_score_above_one :
    search (fun _ => (Except.ok ([] : List ℚ) : Except Str (List ℚ)))
        (fun _ _ => Except.ok ([] : List ScoredPoint))
        (fun _ _ => Except.ok [payloadAbc]) 2025 (("abc").data) 10
      = Except.ok [⟨6/5, ("abc").data, fullTextStr, payloadAbc⟩]
    ∧ ¬ ((6:ℚ)/5 ≤ 1) := by
  constructor
  · have base :
        search (fun _ => (Except.ok ([] : List ℚ) : Except Str (List ℚ)))
            (fun _ _ => Except.ok ([] : List ScoredPoint))
            (fun _ _ => Except.ok [payloadAbc]) 2025 (("abc").data) 10
          = Except.ok [⟨fullTextScore (("abc").data) payloadAbc,
              ("abc").data, fullTextStr, payloadAbc⟩] := rfl
    rw [base, fullTextScore_payloadAbc]
  · norm_num

theorem mapGet_mapSet_self (m : List (Str × Hit)) (k : Str) (v : Hit) :
    mapGet (mapSet m k v) k = some v := by
  induction m with
  | nil => simp [mapSet, mapGet]
  | cons kv rest ih =>
    obtain ⟨k2, v2⟩ := kv
    by_cases h : k2 = k
    · subst h; simp [mapSet, mapGet]
    · simp [mapSet, mapGet, h, ih]

theorem mapGet_mapSet_ne (m : List (Str × Hit)) (k k2 : Str) (v : Hit)
    (hne : k2 ≠ k) : mapGet (mapSet m k v) k2 = mapGet m k2 := by
  induction m with
  | nil => simp [mapSet, mapGet, Ne.symm hne]
  | cons kv rest ih =>
    obtain ⟨k3, v3⟩ := kv
    by_cases h : k3 = k
    · subst h; simp [mapSet, mapGet, Ne.symm hne]
    · simp only [mapSet, if_neg h]
      by_cases h2 : k3 = k2
      · subst h2; simp [mapGet]
      · simp [mapGet, h2, ih]

theorem mem_keys_mapSet (m : List (Str × Hit)) (k : Str) (v : Hit) :
    ∀ k2 ∈ (mapSet m k v).map Prod.fst, k2 = k ∨ k2 ∈ m.map Prod.fst := by
  induction m with
  | nil => simp [mapSet]
  | cons kv rest ih =>
    obtain ⟨k3, v3⟩ := kv
    by_cases h : k3 = k
    · subst h; simp [mapSet]
    · intro k2 hk2
      simp only [mapSet, if_neg h, List.map_cons, List.mem_cons] at hk2
      rcases hk2 with h2 | h2
      · simp [h2]
      · rcases ih k2 h2 with h3 | h3
        · exact Or.inl h3
        · simp [h3]

theorem nodup_keys_mapSet (m : List (Str × Hit)) (k : Str) (v : Hit)
    (h : (m.map Prod.fst).Nodup) : ((mapSet m k v).map Prod.fst).Nodup := by
  induction m with
  | nil => simp [mapSet]
  | cons kv rest ih =>
    obtain ⟨k3, v3⟩ := kv
    simp only [List.map_cons, List.nodup_cons] at h
    by_cases hk : k3 = k
    · subst hk; simpa [mapSet] using h
    · simp only [mapSet, if_neg hk, List.map_cons, List.nodup_cons]
      refine ⟨fun hmem => ?_, ih h.2⟩
      rcases mem_keys_mapSet rest k v k3 hmem with h2 | h2
      · exact hk h2
      · exact h.1 h2

theorem nodup_keys_updateResults (m : List (Str × Hit)) (cand : Hit)
    (h : (m.map Prod.fst).Nodup) :
    ((updateResults m cand).map Prod.fst).Nodup := by
  simp only [updateResults]
  cases hg : mapGet m (hitKey cand.payload) with
  | none => exact nodup_keys_mapSet m _ cand h
  | some old =>
    dsimp only
    split_ifs with hx
    · exact nodup_keys_mapSet m _ cand h
    · exact h

theorem nodup_keys_foldl_updateResults (cands : List Hit) :
    ∀ m : List (Str × Hit), (m.map Prod.fst).Nodup →
      (((cands.foldl updateResults m).map Prod.fst)).Nodup := by
  induction cands with
  | nil => intro m h; exact h
  | cons c cs ih =>
    intro m h
    exact ih (updateResults m c) (nodup_keys_updateResults m c h)

/-- C4: the accumulator is a key-based reduction on the file path and
chunk index: a candidate replaces the stored hit for its key exactly
when its score is strictly greater, equal scores keep the first-seen
entry, other keys are untouched, folding any candidate sequence from
the empty accumulator yields at most one entry per key, and merging
variants scoring 0.6 and 0.8 for the same key, in either order, stores
the 0.8 hit with its matched query and match type. -/
theorem updateResults_merge_spec (m : List (Str × Hit)) (cand : Hit) :
    (mapGet m (hitKey cand.payload) = none →
       mapGet (updateResults m cand) (hitKey cand.payload) = some cand)
    ∧ (∀ old, mapGet m (hitKey cand.payload) = some old →
         mapGet (updateResults m cand) (hitKey cand.payload)
           = some (if old.score < cand.score then cand else old))
    ∧ (∀ k, k ≠ hitKey cand.payload →
         mapGet (updateResults m cand) k = mapGet m k)
    ∧ (∀ cands : List Hit,
         ((cands.foldl updateResults []).map Prod.fst).Nodup)
    ∧ (∀ (p : Payload) (q1 q2 t1 t2 : Str),
         ([⟨3/5, q1, t1, p⟩, ⟨4/5, q2, t2, p⟩].foldl updateResults []
            = [(hitKey p, ⟨4/5, q2, t2, p⟩)])
         ∧ ([⟨4/5, q2, t2, p⟩, ⟨3/5, q1, t1, p⟩].foldl updateResults []
            = [(hitKey p, ⟨4/5, q2, t2, p⟩)])) := by
  refine ⟨?_, ?_, ?_, ?_, ?_⟩
  · intro h
    simp only [updateResults, h]
    exact mapGet_mapSet_self m _ cand
  · intro old h
    simp only [updateResults, h]
    split_ifs with hs
    · exact mapGet_mapSet_self m _ cand
    · rw [h]
  · intro k hk
    simp only [updateResults]
    cases hg : mapGet m (hitKey cand.payload) with
    | none => exact mapGet_mapSet_ne m _ k cand hk
    | some old =>
      dsimp only
      split_ifs with hx
      · exact mapGet_mapSet_ne m _ k cand hk
      · rfl
  · intro cands
    exact nodup_keys_foldl_updateResults cands [] (by simp)
  · intro p q1 q2 t1 t2
    have e1 : updateResults [] (⟨3/5, q1, t1, p⟩ : Hit)
        = [(hitKey p, ⟨3/5, q1, t1, p⟩)] := by
      simp [updateResults, mapGet, mapSet]
    have e2 : updateResults [(hitKey p, ⟨3/5, q1, t1, p⟩)] (⟨4/5, q2, t2, p⟩ : Hit)
        = [(hitKey p, ⟨4/5, q2, t2, p⟩)] := by
      simp only [updateResults, mapGet, if_pos rfl]
      norm_num [mapSet]
    have e3 : updateResults [] (⟨4/5, q2, t2, p⟩ : Hit)
        = [(hitKey p, ⟨4/5, q2, t2, p⟩)] := by
      simp [updateResults, mapGet, mapSet]
    have e4 : updateResults [(hitKey p, ⟨4/5, q2, t2, p⟩)] (⟨3/5, q1, t1, p⟩ : Hit)
        = [(hitKey p, ⟨4/5, q2, t2, p⟩)] := by
      simp only [updateResults, mapGet, if_pos rfl]
      norm_num
    constructor
    · simp only [List.foldl_cons, List.foldl_nil, e1, e2]
    · simp only [List.foldl_cons, List.foldl_nil, e3, e4]

/-- Witness for C4: inserting a candidate into the empty accumulator
stores it under its key. -/
theorem updateResults_merge_spec_witness :
    mapGet (updateResults [] ⟨1, [], semanticStr, ⟨[], 0, [], none, []⟩⟩)
        (hitKey ⟨[], 0, [], none, []⟩)
      = some ⟨1, [], semanticStr, ⟨[], 0, [], none, []⟩⟩ :=
  (updateResults_merge_spec [] ⟨1, [], semanticStr, ⟨[], 0, [], none, []⟩⟩).1 rfl

theorem except_bind_error {ε α β : Type} (e : ε) (f : α → Except ε β) :
    (Except.error e : Except ε α) >>= f = Except.error e := rfl

theorem except_bind_ok {ε α β : Type} (a : α) (f : α → Except ε β) :
    (Except.ok a : Except ε α) >>= f = f a := rfl

theorem except_pure {ε α : Type} (a : α) :
    (pure a : Except ε α) = Except.ok a := rfl

theorem addFullTextResults_all_error {ε : Type}
    (scroll : Str → Nat → Except ε (List Payload)) (lim : Nat)
    (hs : ∀ v, ∃ e, scroll v (lim * 2) = Except.error e) :
    ∀ (qs : List Str) (m : List (Str × Hit)),
      addFullTextResults scroll lim qs m = m
  | [], _ => rfl
  | v :: vs, m => by
    obtain ⟨e, he⟩ := hs v
    simp [addFullTextResults, he]

/-- C5: if the lexical scroll query errors for every variant, search
does not raise: it returns exactly the hits accumulated by the
semantic legs, sorted by descending score and truncated to the
limit. -/
theorem search_lexical_failure_semantic_only {ε : Type}
    (embed : Str → Except ε (List ℚ))
    (storeSearch : List ℚ → Nat → Except ε (List ScoredPoint))
    (scroll : Str → Nat → Except ε (List Payload))
    (year : Nat) (q : Str) (lim : Nat)
    (hs : ∀ v, ∃ e, scroll v (lim * 2) = Except.error e) :
    search embed storeSearch scroll year q lim
      = (semanticPass embed storeSearch lim (expandQuery q year) []).map
          (fun acc => (sortHits (acc.map Prod.snd)).take lim) := by
  unfold search
  cases hsem : semanticPass embed storeSearch lim (expandQuery q year) [] with
  | error e => simp [hsem, Except.map, Except.bind]
  | ok acc =>
    simp [hsem, Except.map, Except.bind,
      addFullTextResults_all_error scroll lim hs]

/-- Witness for C5: a search whose scroll oracle always errors still
returns the semantic-only result. -/
theorem search_lexical_failure_semantic_only_witness :
    search (fun _ => (Except.ok ([] : List ℚ) : Except Str (List ℚ)))
        (fun _ _ => Except.ok ([] : List ScoredPoint))
        (fun _ _ => Except.error (("scroll down").data)) 2025 (("x").data) 5
      = Except.ok [] :=
  (search_lexical_failure_semantic_only
    (fun _ => (Except.ok ([] : List ℚ) : Except Str (List ℚ)))
    (fun _ _ => Except.ok []) (fun _ _ => Except.error (("scroll down").data))
    2025 (("x").data) 5 (fun _ => ⟨("scroll down").data, rfl⟩)).trans rfl

theorem mem_insertDesc (x a : Hit) :
    ∀ l : List Hit, a ∈ insertDesc x l ↔ a = x ∨ a ∈ l
  | [] => by simp [insertDesc]
  | y :: ys => by
    by_cases h : y.score < x.score
    · simp only [insertDesc, if_pos h, List.mem_cons]
    · simp only [insertDesc, if_neg h, List.mem_cons, mem_insertDesc x a ys]
      tauto

theorem sorted_insertDesc (x : Hit) (l : List Hit)
    (hl : List.Sorted (fun a b : Hit => b.score ≤ a.score) l) :
    List.Sorted (fun a b : Hit => b.score ≤ a.score) (insertDesc x l) := by
  induction l with
  | nil => simp [insertDesc]
  | cons y ys ih =>
    rw [List.sorted_cons] at hl
    by_cases h : y.score < x.score
    · simp only [insertDesc, if_pos h]
      rw [List.sorted_cons]
      refine ⟨?_, by rw [List.sorted_cons]; exact hl⟩
      intro b hb
      rcases List.mem_cons.mp hb with rfl | hb2
      · exact le_of_lt h
      · exact le_trans (hl.1 b hb2) (le_of_lt h)
    · simp only [insertDesc, if_neg h]
      rw [List.sorted_cons]
      refine ⟨?_, ih hl.2⟩
      intro b hb
      rcases (mem_insertDesc x b ys).mp hb with rfl | hb2
      · exact not_lt.mp h
      · exact hl.1 b hb2

theorem sortHits_sorted (l : List Hit) :
    List.Sorted (fun a b : Hit => b.score ≤ a.score) (sortHits l) := by
  induction l with
  | nil => simp [sortHits]
  | cons x xs ih => exact sorted_insertDesc x _ ih

/-- C8: a search result that returns successfully has at most limit
hits, and their scores are non-increasing in output order. -/
theorem search_limit_and_sorted {ε : Type}
    (embed : Str → Except ε (List ℚ))
    (storeSearch : List ℚ → Nat → Except ε (List ScoredPoint))
    (scroll : Str → Nat → Except ε (List Payload))
    (year : Nat) (q : Str) (lim : Nat) (hits : List Hit)
    (h : search embed storeSearch scroll year q lim = Except.ok hits) :
    hits.length ≤ lim
    ∧ List.Sorted (fun a b : Hit => b.score ≤ a.score) hits := by
  simp only [search] at h
  cases hsem : semanticPass embed storeSearch lim (expandQuery q year) [] with
  | error e =>
    rw [hsem, except_bind_error] at h
    exact absurd h (by simp)
  | ok acc =>
    rw [hsem, except_bind_ok] at h
    simp only [except_pure, Except.ok.injEq] at h
    subst h
    constructor
    · simp only [List.length_take]
      exact min_le_left _ _
    · exact List.Pairwise.sublist (List.take_sublist _ _) (sortHits_sorted _)

/-- Witness for C8 at a concrete successful search call. -/
theorem search_limit_and_sorted_witness :
    ([] : List Hit).length ≤ 5
    ∧ List.Sorted (fun a b : Hit => b.score ≤ a.score) ([] : List Hit) :=
  search_limit_and_sorted (fun _ => (Except.ok ([] : List ℚ) : Except Str (List ℚ)))
    (fun _ _ => Except.ok []) (fun _ _ => Except.ok []) 2025 (("x").data) 5 [] rfl

/-- C2 counterexample: the engine search applied to the empty query
does not surface a validation error: with responsive oracles it
returns an ordinary empty result, and when the embedding oracle fails
on the empty string that failure propagates, showing the embedding
network call is attempted. -/
theorem search_empty_query_counterexample :
    (search (fun _ => (Except.ok ([] : List ℚ) : Except Str (List ℚ)))
        (fun _ _ => Except.ok ([] : List ScoredPoint))
        (fun _ _ => Except.ok ([] : List Payload)) 2025 [] 10 = Except.ok [])
    ∧ (search
        (fun q => if q.isEmpty then (Except.error (("embed down").data) : Except Str (List ℚ))
          else Except.ok [])
        (fun _ _ => Except.ok ([] : List ScoredPoint))
        (fun _ _ => Except.ok ([] : List Payload)) 2025 [] 10
        = Except.error (("embed down").data)) :=
  ⟨rfl, rfl⟩

/-- C2 amended: validation of a missing or empty query happens in the
MCP tool layer, not in the engine: handleSearchNotes rejects a falsy
query argument with an InvalidParams error whose result does not
depend on the search function, which is therefore never invoked and no
network call is attempted; the engine search itself performs no
validation. -/
theorem handleSearchNotes_rejects_falsy_query
    (doSearch : Str → Nat → Except Str (List Hit)) (q : Option Str) (lim : Nat)
    (h : q = none ∨ q = some []) :
    handleSearchNotes doSearch q lim
      = Except.error (.invalidParams (("Query parameter is required").data)) := by
  rcases h with rfl | rfl <;> rfl

/-- Witness for C2 at the empty query string. -/
theorem handleSearchNotes_rejects_falsy_query_witness :
    handleSearchNotes (fun _ _ => Except.ok []) (some []) 10
      = Except.error (.invalidParams (("Query parameter is required").data)) :=
  handleSearchNotes_rejects_falsy_query (fun _ _ => Except.ok []) (some []) 10
    (Or.inr rfl)

theorem buildPoints_error {ε : Type} (embed : Str → Except ε (List ℚ))
    (doc : Document) :
    ∀ (cs : List Chunk) (i : Nat),
      (∃ c ∈ cs, ∃ e, embed c.text = Except.error e) →
      ∃ e, buildPoints embed doc cs i = Except.error e
  | [], _, h => by simp at h
  | c :: cs, i, h => by
    cases hemb : embed c.text with
    | error e => exact ⟨e, by simp only [buildPoints, hemb, except_bind_error]⟩
    | ok v =>
      obtain ⟨c2, hc2, e2, he2⟩ := h
      rcases List.mem_cons.mp hc2 with rfl | hmem
      · rw [hemb] at he2; exact absurd he2 (by simp)
      · obtain ⟨e3, he3⟩ := buildPoints_error embed doc cs (i + 1) ⟨c2, hmem, e2, he2⟩
        exact ⟨e3, by simp only [buildPoints, hemb, except_bind_ok, he3,
          except_bind_error]⟩

theorem buildPoints_ok_length {ε : Type} (embed : Str → Except ε (List ℚ))
    (doc : Document) :
    ∀ (cs : List Chunk) (i : Nat) (pts : List IndexPoint),
      buildPoints embed doc cs i = Except.ok pts → pts.length = cs.length
  | [], _, pts, h => by
    simp only [buildPoints, Except.ok.injEq] at h
    rw [← h]
    rfl
  | c :: cs, i, pts, h => by
    cases hemb : embed c.text with
    | error e =>
      simp only [buildPoints, hemb, except_bind_error] at h
      exact absurd h (by simp)
    | ok v =>
      cases hrest : buildPoints embed doc cs (i + 1) with
      | error e =>
        simp only [buildPoints, hemb, except_bind_ok, hrest, except_bind_error] at h
        exact absurd h (by simp)
      | ok rest =>
        simp only [buildPoints, hemb, except_bind_ok, hrest, Except.ok.injEq] at h
        rw [← h]
        simp [buildPoints_ok_length embed doc cs (i + 1) rest hrest]

/-- C6: if the embedding service fails for any chunk, processDocument
rethrows an error, meaning the upsert is never issued; and when it
succeeds, the single batched upsert carries one point per chunk, so the
store receives all points of the document or none. -/
theorem processDocument_all_or_nothing {ε : Type}
    (embed : Str → Except ε (List ℚ)) (doc : Document) :
    ((∃ c ∈ chunkDocument doc.content, ∃ e, embed c.text = Except.error e) →
       ∃ e, processDocument embed doc = Except.error e)
    ∧ (∀ pts, processDocument embed doc = Except.ok pts →
         pts.length = (chunkDocument doc.content).length) := by
  constructor
  · intro h
    exact buildPoints_error embed doc (chunkDocument doc.content) 0 h
  · intro pts h
    exact buildPoints_ok_length embed doc (chunkDocument doc.content) 0 pts h

/-- Witness for C6: with an always-failing embedding service, indexing
a concrete document aborts with an error. -/
theorem processDocument_all_or_nothing_witness :
    ∃ e, processDocument (fun _ => (Except.error (("down").data) : Except Str (List ℚ)))
        ⟨("a.md").data, ("a.md").data, ("hello").data, none, 0⟩ = Except.error e :=
  (processDocument_all_or_nothing
      (fun _ => (Except.error (("down").data) : Except Str (List ℚ)))
      ⟨("a.md").data, ("a.md").data, ("hello").data, none, 0⟩).1
    ⟨⟨("hello").data, 0⟩, by decide, ("down").data, rfl⟩

theorem length_dropWhile_le (p : Char → Bool) :
    ∀ l : Str, (l.dropWhile p).length ≤ l.length
  | [] => Nat.le_refl _
  | c :: t => by
    simp only [List.dropWhile]
    split
    · exact Nat.le_succ_of_le (length_dropWhile_le p t)
    · exact Nat.le_refl _

theorem trimStr_length_le (s : Str) : (trimStr s).length ≤ s.length := by
  unfold trimStr
  rw [List.length_reverse]
  refine le_trans (length_dropWhile_le _ _) ?_
  rw [List.length_reverse]
  exact length_dropWhile_le _ _

theorem sliceLast_length_le (s : Str) (n : Nat) : (sliceLast s n).length ≤ n := by
  simp only [sliceLast, List.length_drop]
  omega

theorem goodChunkLen_mono {ps : List Str} {m n : Nat}
    (h : goodChunkLen ps n) (hmn : m ≤ n) : goodChunkLen ps m := by
  rcases h with h | ⟨p, hp, h9, hle⟩
  · exact Or.inl (le_trans hmn h)
  · exact Or.inr ⟨p, hp, h9, le_trans hmn hle⟩

set_option maxRecDepth 100000 in
/-- C3 counterexample: a document made of two 500-character paragraphs
(no paragraph longer than 1000) is chunked into a single chunk of 1002
characters, exceeding the claimed 1000 bound without originating from
an oversized paragraph, because the blank-line separator re-inserted
between appended paragraphs is not counted against the limit. -/
theorem chunkDocument_over_limit_counterexample :
    ((splitParas cex3).map List.length = [500, 500])
    ∧ ((chunkDocument cex3).map (fun c => c.text.length) = [1002]) := by
  constructor <;> decide

theorem chunkLoop_good (ps : List Str) :
    ∀ (rs : List Str) (chunks : List Chunk) (cur : Str),
      (∀ r ∈ rs, r ∈ ps) →
      (cur.length = 0 ∨ goodChunkLen ps cur.length) →
      (∀ c ∈ chunks, goodChunkLen ps c.text.length) →
      (∀ c ∈ (chunkLoop rs chunks cur).1, goodChunkLen ps c.text.length)
      ∧ ((chunkLoop rs chunks cur).2.length = 0
         ∨ goodChunkLen ps (chunkLoop rs chunks cur).2.length)
  | [], chunks, cur => fun _ hcur hchunks => ⟨hchunks, hcur⟩
  | p :: rest, chunks, cur => by
    intro hsub hcur hchunks
    rw [chunkLoop]
    by_cases hcond : 1000 < cur.length + p.length ∧ 0 < cur.length
    · rw [if_pos hcond]
      refine chunkLoop_good ps rest _ _
        (fun r hr => hsub r (List.mem_cons_of_mem p hr)) ?_ ?_
      · right
        have hlen : (sliceLast cur 100 ++ p).length ≤ 100 + p.length := by
          rw [List.length_append]
          exact Nat.add_le_add_right (sliceLast_length_le cur 100) _
        by_cases hbig : (sliceLast cur 100 ++ p).length ≤ 1002
        · exact Or.inl hbig
        · exact Or.inr ⟨p, hsub p (List.mem_cons_self p rest), by omega, hlen⟩
      · intro c hc
        rcases List.mem_append.mp hc with hc | hc
        · exact hchunks c hc
        · rw [List.mem_singleton] at hc
          subst hc
          rcases hcur with h0 | hgood
          · omega
          · exact goodChunkLen_mono hgood (trimStr_length_le cur)
    · rw [if_neg hcond]
      by_cases h0 : 0 < cur.length
      · rw [if_pos h0]
        refine chunkLoop_good ps rest _ _
          (fun r hr => hsub r (List.mem_cons_of_mem p hr)) ?_ hchunks
        right
        left
        rw [List.length_append]
        simp only [List.length_cons]
        omega
      · rw [if_neg h0]
        have hc0 : cur = [] := List.length_eq_zero.mp (by omega)
        subst hc0
        refine chunkLoop_good ps rest _ _
          (fun r hr => hsub r (List.mem_cons_of_mem p hr)) ?_ hchunks
        right
        simp only [List.nil_append]
        by_cases hbig : p.length ≤ 1002
        · exact Or.inl hbig
        · exact Or.inr ⟨p, hsub p (List.mem_cons_self p rest), by omega, by omega⟩

theorem spGo_buf_mem (c : Char) :
    ∀ (rest : Str) (st : SpState), c ∈ bufOf st →
      ∃ p ∈ spGo st rest, c ∈ p
  | [], st, h => by
    cases st with
    | norm buf =>
      exact ⟨buf.reverse, by simp [spGo], List.mem_reverse.mpr h⟩
    | sawNl buf pend =>
      exact ⟨(pend ++ buf).reverse, by simp [spGo],
        List.mem_reverse.mpr (List.mem_append_right pend h)⟩
    | inSep pend2 => exact absurd h (List.not_mem_nil c)
  | ch :: t, st, h => by
    cases st with
    | norm buf =>
      simp only [spGo]
      by_cases h1 : ch = '\n'
      · rw [if_pos h1]
        exact spGo_buf_mem c t (.sawNl buf ['\n']) h
      · rw [if_neg h1]
        exact spGo_buf_mem c t (.norm (ch :: buf)) (List.mem_cons_of_mem ch h)
    | sawNl buf pend =>
      simp only [spGo]
      by_cases h1 : ch = '\n'
      · rw [if_pos h1]
        exact ⟨buf.reverse, List.mem_cons_self _ _, List.mem_reverse.mpr h⟩
      · rw [if_neg h1]
        by_cases h2 : isWsChar ch = true
        · rw [if_pos h2]
          exact spGo_buf_mem c t (.sawNl buf (ch :: pend)) h
        · rw [if_neg h2]
          exact spGo_buf_mem c t (.norm (ch :: (pend ++ buf)))
            (List.mem_cons_of_mem ch (List.mem_append_right pend h))
    | inSep pend2 => exact absurd h (List.not_mem_nil c)

theorem spGo_rest_ws :
    ∀ (rest : Str) (st : SpState),
      (∀ p ∈ spGo st rest, ∀ c ∈ p, isWsChar c = true) →
      ∀ c ∈ rest, isWsChar c = true
  | [], _, _ => by intro c hc; exact absurd hc (List.not_mem_nil c)
  | ch :: t, st, hws => by
    cases st with
    | norm buf =>
      by_cases h1 : ch = '\n'
      · have hws2 : ∀ p ∈ spGo (.sawNl buf ['\n']) t, ∀ c ∈ p, isWsChar c = true := by
          intro p hp
          exact hws p (by simp only [spGo]; rw [if_pos h1]; exact hp)
        intro c hc
        rcases List.mem_cons.mp hc with hceq | hct
        · rw [hceq, h1]; decide
        · exact spGo_rest_ws t _ hws2 c hct
      · have hws2 : ∀ p ∈ spGo (.norm (ch :: buf)) t, ∀ c ∈ p, isWsChar c = true := by
          intro p hp
          exact hws p (by simp only [spGo]; rw [if_neg h1]; exact hp)
        intro c hc
        rcases List.mem_cons.mp hc with hceq | hct
        · obtain ⟨p, hp, hcp⟩ :=
            spGo_buf_mem ch t (.norm (ch :: buf)) (List.mem_cons_self ch buf)
          rw [hceq]
          exact hws2 p hp ch hcp
        · exact spGo_rest_ws t _ hws2 c hct
    | sawNl buf pend =>
      by_cases h1 : ch = '\n'
      · have hws2 : ∀ p ∈ spGo (.inSep []) t, ∀ c ∈ p, isWsChar c = true := by
          intro p hp
          refine hws p ?_
          simp only [spGo]; rw [if_pos h1]
          exact List.mem_cons_of_mem _ hp
        intro c hc
        rcases List.mem_cons.mp hc with hceq | hct
        · rw [hceq, h1]; decide
        · exact spGo_rest_ws t _ hws2 c hct
      · by_cases h2 : isWsChar ch = true
        · have hws2 : ∀ p ∈ spGo (.sawNl buf (ch :: pend)) t, ∀ c ∈ p,
              isWsChar c = true := by
            intro p hp
            exact hws p (by simp only [spGo]; rw [if_neg h1, if_pos h2]; exact hp)
          intro c hc
          rcases List.mem_cons.mp hc with hceq | hct
          · rw [hceq]; exact h2
          · exact spGo_rest_ws t _ hws2 c hct
        · have hws2 : ∀ p ∈ spGo (.norm (ch :: (pend ++ buf))) t, ∀ c ∈ p,
              isWsChar c = true := by
            intro p hp
            exact hws p (by simp only [spGo]; rw [if_neg h1, if_neg h2]; exact hp)
          intro c hc
          rcases List.mem_cons.mp hc with hceq | hct
          · obtain ⟨p, hp, hcp⟩ := spGo_buf_mem ch t
              (.norm (ch :: (pend ++ buf))) (List.mem_cons_self _ _)
            rw [hceq]
            exact hws2 p hp ch hcp
          · exact spGo_rest_ws t _ hws2 c hct
    | inSep pend2 =>
      by_cases h1 : ch = '\n'
      · have hws2 : ∀ p ∈ spGo (.inSep []) t, ∀ c ∈ p, isWsChar c = true := by
          intro p hp
          exact hws p (by simp only [spGo]; rw [if_pos h1]; exact hp)
        intro c hc
        rcases List.mem_cons.mp hc with hceq | hct
        · rw [hceq, h1]; decide
        · exact spGo_rest_ws t _ hws2 c hct
      · by_cases h2 : isWsChar ch = true
        · have hws2 : ∀ p ∈ spGo (.inSep (ch :: pend2)) t, ∀ c ∈ p,
              isWsChar c = true := by
            intro p hp
            exact hws p (by simp only [spGo]; rw [if_neg h1, if_pos h2]; exact hp)
          intro c hc
          rcases List.mem_cons.mp hc with hceq | hct
          · rw [hceq]; exact h2
          · exact spGo_rest_ws t _ hws2 c hct
        · have hws2 : ∀ p ∈ spGo (.norm (ch :: pend2)) t, ∀ c ∈ p,
              isWsChar c = true := by
            intro p hp
            exact hws p (by simp only [spGo]; rw [if_neg h1, if_neg h2]; exact hp)
          intro c hc
          rcases List.mem_cons.mp hc with hceq | hct
          · obtain ⟨p, hp, hcp⟩ := spGo_buf_mem ch t
              (.norm (ch :: pend2)) (List.mem_cons_self _ _)
            rw [hceq]
            exact hws2 p hp ch hcp
          · exact spGo_rest_ws t _ hws2 c hct

theorem mem_dropWhile_of_not (p : Char → Bool) (c : Char) (hpc : ¬ p c = true) :
    ∀ l : Str, c ∈ l → c ∈ l.dropWhile p
  | x :: t, hm => by
    simp only [List.dropWhile]
    split
    next hx =>
      rcases List.mem_cons.mp hm with hceq | hmt
      · subst hceq; exact absurd hx hpc
      · exact mem_dropWhile_of_not p c hpc t hmt
    next hx => exact hm

theorem trimStr_nil_ws {s : Str} (h : trimStr s = []) :
    ∀ c ∈ s, isWsChar c = true := by
  unfold trimStr at h
  rw [List.reverse_eq_nil_iff, List.dropWhile_eq_nil_iff] at h
  intro c hc
  by_cases hws : isWsChar c = true
  · exact hws
  · exact h c (List.mem_reverse.mpr (mem_dropWhile_of_not _ c hws s hc))

theorem trimStr_eq_nil_of_ws {s : Str} (h : ∀ c ∈ s, isWsChar c = true) :
    trimStr s = [] := by
  unfold trimStr
  rw [List.dropWhile_eq_nil_iff.mpr h]
  rfl

theorem chunkLoop_chunks_extend :
    ∀ (rs : List Str) (chunks : List Chunk) (cur : Str),
      ∃ tail, (chunkLoop rs chunks cur).1 = chunks ++ tail
  | [], chunks, cur => ⟨[], by simp [chunkLoop]⟩
  | p :: rest, chunks, cur => by
    rw [chunkLoop]
    by_cases hcond : 1000 < cur.length + p.length ∧ 0 < cur.length
    · rw [if_pos hcond]
      obtain ⟨tail, ht⟩ := chunkLoop_chunks_extend rest
        (chunks ++ [⟨trimStr cur, chunks.length * 900⟩]) (sliceLast cur 100 ++ p)
      refine ⟨⟨trimStr cur, chunks.length * 900⟩ :: tail, ?_⟩
      rw [ht, List.append_assoc]
      rfl
    · rw [if_neg hcond]
      exact chunkLoop_chunks_extend rest chunks _

theorem chunkLoop_noflush_chars :
    ∀ (rs : List Str) (chunks : List Chunk) (cur : Str),
      (chunkLoop rs chunks cur).1 = [] →
      (∀ c ∈ cur, c ∈ (chunkLoop rs chunks cur).2)
      ∧ (∀ r ∈ rs, ∀ c ∈ r, c ∈ (chunkLoop rs chunks cur).2)
  | [], chunks, cur, _ => ⟨fun _ hc => hc, by simp⟩
  | p :: rest, chunks, cur, h => by
    rw [chunkLoop] at h ⊢
    by_cases hcond : 1000 < cur.length + p.length ∧ 0 < cur.length
    · rw [if_pos hcond] at h
      obtain ⟨tail, ht⟩ := chunkLoop_chunks_extend rest
        (chunks ++ [⟨trimStr cur, chunks.length * 900⟩]) (sliceLast cur 100 ++ p)
      rw [ht] at h
      simp at h
    · rw [if_neg hcond] at h ⊢
      have hrec := chunkLoop_noflush_chars rest chunks
        (cur ++ if 0 < cur.length then '\n' :: '\n' :: p else p) h
      refine ⟨fun c hc => hrec.1 c (List.mem_append_left _ hc), ?_⟩
      intro r hr c hc
      rcases List.mem_cons.mp hr with rfl | hr2
      · refine hrec.1 c (List.mem_append_right _ ?_)
        split
        · exact List.mem_cons_of_mem _ (List.mem_cons_of_mem _ hc)
        · exact hc
      · exact hrec.2 r hr2 c hc

/-- C3 amended: every chunk text has length at most 1002 (the 1000
limit plus the two characters of the re-inserted blank-line
separator), except a chunk dominated by an oversized paragraph: such a
chunk consists of at most a 100-character overlap seam followed by a
paragraph longer than 900 characters, so its length is at most 100
plus the length of that paragraph; a lone oversized paragraph still forms
its own unsplit chunk. -/
theorem chunkDocument_length_bound (text : Str) (c : Chunk)
    (hc : c ∈ chunkDocument text) :
    c.text.length ≤ 1002
    ∨ ∃ p ∈ splitParas text, 900 < p.length ∧ c.text.length ≤ 100 + p.length := by
  have hloop := chunkLoop_good (splitParas text) (splitParas text) [] []
    (fun r hr => hr) (Or.inl rfl) (by simp)
  simp only [chunkDocument] at hc
  by_cases hfin : 0 < (trimStr (chunkLoop (splitParas text) [] []).2).length
  · rw [if_pos hfin, if_pos (by simp)] at hc
    rcases List.mem_append.mp hc with hc | hc
    · exact hloop.1 c hc
    · rw [List.mem_singleton] at hc
      subst hc
      rcases hloop.2 with h0 | hgood
      · have := trimStr_length_le (chunkLoop (splitParas text) [] []).2
        omega
      · exact goodChunkLen_mono hgood (trimStr_length_le _)
  · rw [if_neg hfin] at hc
    by_cases hne : 0 < (chunkLoop (splitParas text) [] []).1.length
    · rw [if_pos hne] at hc
      exact hloop.1 c hc
    · rw [if_neg hne] at hc
      rw [List.mem_singleton] at hc
      subst hc
      left
      have hempty : (chunkLoop (splitParas text) [] []).1 = [] :=
        List.length_eq_zero.mp (by omega)
      have htrim : trimStr (chunkLoop (splitParas text) [] []).2 = [] :=
        List.length_eq_zero.mp (by omega)
      have hchars := chunkLoop_noflush_chars (splitParas text) [] [] hempty
      have hcurws := trimStr_nil_ws htrim
      have htextws : ∀ ch ∈ text, isWsChar ch = true :=
        spGo_rest_ws text (.norm [])
          (fun p hp ch hch => hcurws ch (hchars.2 p hp ch hch))
      have : trimStr text = [] := trimStr_eq_nil_of_ws htextws
      simp [this]

/-- Witness for C3 at a one-paragraph document. -/
theorem chunkDocument_length_bound_witness :
    ((⟨("hello").data, 0⟩ : Chunk) ∈ chunkDocument (("hello").data))
    ∧ ((⟨("hello").data, 0⟩ : Chunk).text.length ≤ 1002
       ∨ ∃ p ∈ splitParas (("hello").data), 900 < p.length
           ∧ (⟨("hello").data, 0⟩ : Chunk).text.length ≤ 100 + p.length) :=
  ⟨by decide, chunkDocument_length_bound (("hello").data) ⟨("hello").data, 0⟩
    (by decide)⟩

end ObsidianMCP
